import Mathlib

/-!
Verification development for the picoclaw-dashboard event distribution and
log-ingestion engine.  The Go sources are shallowly embedded: strings are
lists of characters, `journalctl` output is an input value, wall-clock time
is an explicit parameter, and the concurrent hub loop is a step function on
an explicit subscriber list.
-/

namespace Picoclaw

/-! ## Character and string helpers (models of Go's string functions) -/

/-- ASCII decimal digit, the model of the regexp class for digits. -/
def isDigitCh (c : Char) : Bool := '0' ≤ c && c ≤ '9'

/-- Uppercase ASCII letter, the model of the regexp class for levels. -/
def isUpperAZ (c : Char) : Bool := 'A' ≤ c && c ≤ 'Z'

/-- ASCII lowering, the model of how strings.ToLower acts on the characters
relevant here (levels and search text are ASCII in this code base). -/
def lowerCh (c : Char) : Char :=
  if isUpperAZ c then Char.ofNat (c.toNat + 32) else c

/-- Model of strings.ToLower. -/
def lowerStr (s : List Char) : List Char := s.map lowerCh

/-- Whitespace in the sense of unicode.IsSpace, restricted to the code points
strings.TrimSpace can actually see in journalctl output. -/
def isSpaceCh (c : Char) : Bool :=
  c = ' ' || c = '\t' || c = '\n' || c = '\r' ||
  c = '\x0b' || c = '\x0c' || c = '\u0085' || c = ' '

/-- Model of strings.TrimSpace: drop whitespace from both ends. -/
def trimStr (s : List Char) : List Char :=
  (((s.dropWhile isSpaceCh).reverse.dropWhile isSpaceCh)).reverse

/-- Model of strings.Split with separator a single newline. -/
def splitNl : List Char → List (List Char)
  | [] => [[]]
  | c :: cs =>
    if c = '\n' then [] :: splitNl cs
    else
      match splitNl cs with
      | [] => [[c]]
      | l :: ls => (c :: l) :: ls

/-- Model of the "p.isPrefixOf s" check used to implement substring search. -/
def startsWithL : List Char → List Char → Bool
  | _, [] => true
  | [], _ :: _ => false
  | c :: cs, d :: ds => c == d && startsWithL cs ds

/-- Model of strings.Contains. -/
def strContains : List Char → List Char → Bool
  | [], sub => startsWithL [] sub
  | c :: t, sub => startsWithL (c :: t) sub || strContains t sub

/-- Model of the handler's hand-rolled indexOf loop (handler.go): scan
positions left to right while at least sub.length characters remain. -/
def goIndexOfAux : List Char → List Char → Nat → Int
  | [], sub, i => if sub.isEmpty then Int.ofNat i else -1
  | c :: t, sub, i =>
    if (c :: t).length < sub.length then -1
    else if startsWithL (c :: t) sub then Int.ofNat i
    else goIndexOfAux t sub (i + 1)

/-- Model of the handler's hand-rolled contains (handler.go, case sensitive). -/
def goContains (s sub : List Char) : Bool :=
  decide (sub.length ≤ s.length) &&
    (s == sub || (decide (sub.length < s.length) && decide (0 ≤ goIndexOfAux s sub 0)))

/-! ## Timestamp parsing (model of time.Parse with layout 2006/01/02 15:04:05)

A parsed instant is encoded as a natural number through a mixed-radix
encoding that is strictly monotone in (year, month, day, hour, min, sec),
so Time.After is `<` and Time.Equal is `=` on the encoding. -/

def digitVal (c : Char) : Nat := c.toNat - '0'.toNat

def isLeapYear (y : Nat) : Bool :=
  y % 4 = 0 && (y % 100 ≠ 0 || y % 400 = 0)

def daysInMonth (y m : Nat) : Nat :=
  if m = 2 then (if isLeapYear y then 29 else 28)
  else if m = 4 || m = 6 || m = 9 || m = 11 then 30
  else 31

def tsEncode (y mo d h mi s : Nat) : Nat :=
  ((((y * 13 + mo) * 32 + d) * 24 + h) * 60 + mi) * 60 + s

/-- Model of time.Parse on the 19 characters matched by the header regexp:
returns none exactly when Go's parser reports an out-of-range component. -/
def parseTimestamp : List Char → Option Nat
  | [y1, y2, y3, y4, _, m1, m2, _, d1, d2, _, h1, h2, _, n1, n2, _, s1, s2] =>
    let y := ((digitVal y1 * 10 + digitVal y2) * 10 + digitVal y3) * 10 + digitVal y4
    let mo := digitVal m1 * 10 + digitVal m2
    let d := digitVal d1 * 10 + digitVal d2
    let h := digitVal h1 * 10 + digitVal h2
    let mi := digitVal n1 * 10 + digitVal n2
    let s := digitVal s1 * 10 + digitVal s2
    if 1 ≤ mo && mo ≤ 12 && 1 ≤ d && d ≤ daysInMonth y mo &&
       h ≤ 23 && mi ≤ 59 && s ≤ 59 then
      some (tsEncode y mo d h mi s)
    else none
  | _ => none

/-! ## The header regexp

Model of the Go regexp used at both call sites in service.go.  The date part
is a rigid shape of digits and separators; the bracketed context group is
non-greedy, so the scan tries the earliest closing bracket whose suffix
completes the rest of the pattern; the level group is a maximal nonempty run
of uppercase letters that must be followed by a closing bracket and a space,
and the message group takes the remainder of the line. -/

/-- Match a rigid shape: the character D stands for a digit, anything else is
a literal.  Returns the matched characters and the remaining input. -/
def matchShape : List Char → List Char → Option (List Char × List Char)
  | [], s => some ([], s)
  | _ :: _, [] => none
  | p :: ps, c :: cs =>
    if (if p = 'D' then isDigitCh c else p == c) then
      match matchShape ps cs with
      | some (m, r) => some (c :: m, r)
      | none => none
    else none

/-- After a candidate close of the context group: a space, an open bracket,
a maximal nonempty run of uppercase letters, a close bracket and a space;
the rest of the line is the message group. -/
def levelClose : List Char → Option (List Char × List Char)
  | ' ' :: '[' :: r =>
    match r.dropWhile isUpperAZ with
    | ']' :: ' ' :: msg =>
      if (r.takeWhile isUpperAZ).isEmpty then none
      else some (r.takeWhile isUpperAZ, msg)
    | _ => none
  | _ => none

/-- Non-greedy scan for the context group's closing bracket: the earliest
closing bracket whose suffix completes the pattern wins. -/
def lazyScan : List Char → Option (List Char × List Char)
  | [] => none
  | c :: r =>
    if c = ']' then
      match levelClose r with
      | some p => some p
      | none => lazyScan r
    else lazyScan r

/-- The shape of the date-time prefix of a header line. -/
def tsShape : List Char := ("DDDD/DD/DD DD:DD:DD".toList)

/-- Model of logPattern.FindStringSubmatch: returns the three submatches
(timestamp text, level, message) when the line is a header line. -/
def matchHeader (l : List Char) : Option (List Char × List Char × List Char) :=
  match matchShape tsShape l with
  | some (ts, ' ' :: '[' :: rest) =>
    match lazyScan rest with
    | some (lvl, msg) => some (ts, lvl, msg)
    | none => none
  | _ => none

/-! ## Log entries, filters, and the bounded-fetch parser (service.go) -/

/-- Model of logs.LogEntry; the timestamp is the encoded instant. -/
structure LogEntry where
  timestamp : Nat
  level : List Char
  message : List Char
deriving DecidableEq, Repr

/-- Model of logs.LogFilter. -/
structure LogFilter where
  lines : Nat
  level : List Char
  since : List Char
  search : List Char
deriving DecidableEq, Repr

/-- The search condition of parseLogs: empty search passes, otherwise a
case-insensitive containment test against the message or the level. -/
def searchMatches (f : LogFilter) (e : LogEntry) : Bool :=
  f.search == [] ||
  strContains (lowerStr e.message) (lowerStr f.search) ||
  strContains (lowerStr e.level) (lowerStr f.search)

/-- The flush-time filter of parseLogs: level equality then the search test. -/
def passesFilter (f : LogFilter) (e : LogEntry) : Bool :=
  (f.level == [] || e.level == f.level) && searchMatches f e

/-- Model of Service.parseLogLine: a header line becomes an entry (with the
wall clock `now` as fallback when the timestamp is out of range), any other
line is a continuation and yields none. -/
def parseLogLine (now : Nat) (line : List Char) : Option LogEntry :=
  match matchHeader line with
  | none => none
  | some (ts, lvl, msg) =>
    some { timestamp := (parseTimestamp ts).getD now, level := lvl, message := msg }

/-- The line loop of Service.parseLogs: trims each raw line, skips blank
lines, appends continuation lines to the pending entry (dropping them while
no entry is pending), and flushes the pending entry through the filter when
a new header starts and at end of input. -/
def parseLoop (now : Nat) (f : LogFilter) : List (List Char) → Option LogEntry → List LogEntry
  | [], cur =>
    match cur with
    | none => []
    | some e => if passesFilter f e then [e] else []
  | raw :: ls, cur =>
    let l := trimStr raw
    if l == [] then parseLoop now f ls cur
    else
      match matchHeader l with
      | none =>
        match cur with
        | some e => parseLoop now f ls (some { e with message := e.message ++ '\n' :: l })
        | none => parseLoop now f ls none
      | some (ts, lvl, msg) =>
        (match cur with
         | some e => if passesFilter f e then [e] else []
         | none => []) ++
        parseLoop now f ls (some { timestamp := (parseTimestamp ts).getD now,
                                   level := lvl, message := msg })

/-- Model of Timestamp.After in the sorting loop. -/
def entryAfter (a b : LogEntry) : Bool := decide (b.timestamp < a.timestamp)

/-- One outer iteration of the exchange sort in parseLogs: thread the value
at position i through all later positions, swapping whenever it is after the
later one; returns the final value at position i and the rewritten suffix. -/
def selectPass (x : LogEntry) : List LogEntry → LogEntry × List LogEntry
  | [] => (x, [])
  | y :: ys =>
    if entryAfter x y then
      ((selectPass y ys).1, x :: (selectPass y ys).2)
    else
      ((selectPass x ys).1, y :: (selectPass x ys).2)

theorem selectPass_length (x : LogEntry) (l : List LogEntry) :
    (selectPass x l).2.length = l.length := by
  induction l generalizing x with
  | nil => rfl
  | cons y ys ih =>
    simp only [selectPass]
    split <;> simp [ih]

/-- Fueled form of the outer sorting loop; the fuel is the list length, kept
separate so the recursion is structural. -/
def sortFuel : Nat → List LogEntry → List LogEntry
  | 0, l => l
  | _ + 1, [] => []
  | n + 1, x :: xs => (selectPass x xs).1 :: sortFuel n (selectPass x xs).2

/-- The double loop that sorts entries by timestamp at the end of parseLogs
(an exchange sort: ascending, but not stable). -/
def sortEntries (l : List LogEntry) : List LogEntry := sortFuel l.length l

/-- Model of Service.parseLogs: split the raw output on newlines, run the
assembly-and-filter loop, then sort by timestamp. -/
def parseLogs (now : Nat) (output : List Char) (f : LogFilter) : List LogEntry :=
  sortEntries (parseLoop now f (splitNl output) none)

/-! ## Live follow (Service.FollowLogs)

Each read chunk is split on newlines and every fragment is handled as a
line; the assembler state (the pending entry) is threaded through; a parsed
header with the same timestamp and level as the pending entry is merged into
it, any other header flushes the pending entry to the callback. -/

/-- One fragment of a chunk, as handled inside the chunk loop. -/
def followLineStep (now : Nat) (st : Option LogEntry) (raw : List Char) :
    Option LogEntry × List LogEntry :=
  let l := trimStr raw
  if l == [] then (st, [])
  else
    match parseLogLine now l with
    | none =>
      match st with
      | some e => (some { e with message := e.message ++ '\n' :: l }, [])
      | none => (none, [])
    | some entry =>
      match st with
      | some e =>
        if entry.timestamp == e.timestamp && entry.level == e.level then
          (some { e with message := e.message ++ '\n' :: entry.message }, [])
        else (some entry, [e])
      | none => (some entry, [])

/-- Process a list of line fragments, collecting entries passed to the
callback in order. -/
def followLines (now : Nat) : List (List Char) → Option LogEntry →
    Option LogEntry × List LogEntry
  | [], st => (st, [])
  | l :: ls, st =>
    ((followLines now ls (followLineStep now st l).1).1,
     (followLineStep now st l).2 ++ (followLines now ls (followLineStep now st l).1).2)

/-- Process one read chunk: split it on newlines and walk the fragments. -/
def followChunk (now : Nat) (st : Option LogEntry) (chunk : List Char) :
    Option LogEntry × List LogEntry :=
  followLines now (splitNl chunk) st

/-- What the select loop observes at each iteration: cancellation, a read
that returned a chunk of bytes, or a read error (end of stream included). -/
inductive ReadEvent where
  | cancel
  | chunk (s : List Char)
  | readErr (m : List Char)
deriving DecidableEq, Repr

/-- Terminal state of the follow loop. -/
inductive FollowEnd where
  | running
  | cancelled
  | failed (m : List Char)
deriving DecidableEq, Repr

/-- The flush of a pending entry at a read error. -/
def flushPending : Option LogEntry → List LogEntry
  | none => []
  | some e => [e]

/-- Model of the for/select loop of Service.FollowLogs: cancellation kills
the process and returns ctx.Err() without flushing the pending entry; a read
error flushes the pending entry to the callback and returns the error; a
chunk is processed and the loop continues.  The first component is the
sequence of callback invocations. -/
def followRun (now : Nat) : List ReadEvent → Option LogEntry →
    List LogEntry × FollowEnd
  | [], _ => ([], FollowEnd.running)
  | ReadEvent.cancel :: _, _ => ([], FollowEnd.cancelled)
  | ReadEvent.readErr m :: _, st => (flushPending st, FollowEnd.failed m)
  | ReadEvent.chunk s :: rest, st =>
    ((followChunk now st s).2 ++ (followRun now rest (followChunk now st s).1).1,
     (followRun now rest (followChunk now st s).1).2)

/-- The records delivered for a byte stream read as the given chunks and then
closed: all callback invocations, the end-of-stream flush included. -/
def followDelivered (now : Nat) (chunks : List (List Char)) : List LogEntry :=
  (followRun now (chunks.map ReadEvent.chunk ++ [ReadEvent.readErr ("EOF".toList)]) none).1

/-! ## The SSE stream handler (Handler.streamLogs) -/

/-- The error text of a context cancelled by its caller. -/
def ctxCanceledMsg : List Char := ("context canceled".toList)

/-- The error string FollowLogs returns for each terminal state (none while
the loop is still running). -/
def endError : FollowEnd → Option (List Char)
  | FollowEnd.running => none
  | FollowEnd.cancelled => some ctxCanceledMsg
  | FollowEnd.failed m => some m

/-- The search condition of the stream handler's callback: the hand-rolled
case-sensitive containment test against the message only. -/
def handlerSearchPass (f : LogFilter) (e : LogEntry) : Bool :=
  f.search == [] || goContains e.message f.search

/-- The full per-entry filter of the stream handler's callback. -/
def handlerPass (f : LogFilter) (e : LogEntry) : Bool :=
  (f.level == [] || e.level == f.level) && handlerSearchPass f e

/-- The synthetic final record the handler sends when FollowLogs returns a
non-nil error. -/
def syntheticErrEntry (t : Nat) (m : List Char) : LogEntry :=
  { timestamp := t, level := ("ERROR".toList),
    message := ("Log stream error: ".toList) ++ m }

/-- Model of the streaming goroutine of Handler.streamLogs: every callback
entry that passes the filter is sent as an SSE event, and when FollowLogs
returns a non-nil error a synthetic ERROR record is sent after them. -/
def streamEvents (now t : Nat) (f : LogFilter) (evs : List ReadEvent) :
    List LogEntry :=
  ((followRun now evs none).1).filter (handlerPass f) ++
    (match endError (followRun now evs none).2 with
     | some m => [syntheticErrEntry t m]
     | none => [])

/-! ## The fan-out hub (websocket hub) -/

/-- Model of a registered subscriber: an identity, its queued envelopes, and
the fixed capacity of its outbox channel. -/
structure Client (α : Type) where
  id : Nat
  outbox : List α
  cap : Nat
deriving DecidableEq, Repr

/-- One delivery attempt of the broadcast case: the non-blocking channel send
succeeds when the outbox has room, otherwise the subscriber is closed and
removed (none). -/
def deliverTo {α : Type} (m : α) (c : Client α) : Option (Client α) :=
  if c.outbox.length < c.cap then some { c with outbox := c.outbox ++ [m] } else none

/-- The broadcast case of Hub.Run: every subscriber with room keeps its place
with the envelope enqueued; every full subscriber is dropped. -/
def hubBroadcast {α : Type} (m : α) (cs : List (Client α)) : List (Client α) :=
  cs.filterMap (deliverTo m)

/-- The subscribers removed (and whose outboxes are closed) by a broadcast. -/
def hubOverflowed {α : Type} (m : α) (cs : List (Client α)) : List (Client α) :=
  cs.filter (fun c => (deliverTo m c).isNone)

/-- A control message of the hub's single control loop. -/
inductive HubCtl (α : Type) where
  | register (c : Client α)
  | unregister (cid : Nat)
  | broadcast (m : α)

/-- One iteration of the select loop of Hub.Run over the subscriber set. -/
def hubStep {α : Type} (cs : List (Client α)) : HubCtl α → List (Client α)
  | HubCtl.register c => cs ++ [c]
  | HubCtl.unregister cid => cs.filter (fun c => c.id != cid)
  | HubCtl.broadcast m => hubBroadcast m cs

/-- Model of Hub.Broadcast: a non-blocking send on the buffered control
channel; when the channel is full the publish is discarded. -/
def broadcastSend {α : Type} (qcap : Nat) (q : List α) (m : α) : List α :=
  if q.length < qcap then q ++ [m] else q

/-! ## Specification-side predicates (for refinement statements) -/

/-- The spec's wording of the text filter: the needle occurs as a contiguous
substring of the haystack. -/
def isSubstrOf (needle hay : List Char) : Prop :=
  ∃ a b, hay = a ++ needle ++ b

/-- The spec's level-token well-formedness: a nonempty run of uppercase
letters. -/
def LevelOk (e : LogEntry) : Prop :=
  e.level ≠ [] ∧ e.level.all isUpperAZ = true

/-- No whitespace at either edge of a line (head of the line and head of its
reversal). -/
def noEdgeSpaceB (l : List Char) : Bool :=
  (l.head?.all fun c => !isSpaceCh c) && (l.reverse.head?.all fun c => !isSpaceCh c)

/-- No whitespace at the end of a line (head of its reversal). -/
def noTrailSpaceB (l : List Char) : Bool :=
  l.reverse.head?.all fun c => !isSpaceCh c

/-- Every line after the first of an assembled message is nonempty and
carries no trailing whitespace. -/
def msgTailNoTrail (e : LogEntry) : Prop :=
  ∀ l ∈ (splitNl e.message).tail, l ≠ [] ∧ noTrailSpaceB l = true

/-- A raw line on which the wall clock cannot leak into the parse: either it
is not a header line, or its timestamp is in range. -/
def headerTsValidB (l : List Char) : Bool :=
  match matchHeader (trimStr l) with
  | none => true
  | some (ts, _, _) => (parseTimestamp ts).isSome

/-! ## Theorems -/

/-! ### C1: fan-out hub backpressure -/

theorem deliverTo_id {α : Type} (m : α) (c c' : Client α)
    (h : deliverTo m c = some c') : c'.id = c.id := by
  unfold deliverTo at h
  split at h
  · cases h; rfl
  · cases h

/-- C1: the broadcast case of the hub control loop enqueues the envelope to
every subscriber whose outbox has room; any subscriber whose outbox is full
at that moment is removed from the set (appearing in the overflow list whose
outboxes are closed) and no subscriber with its identity survives, while the
others still receive the envelope; and Hub.Broadcast never blocks: the
publish is appended when the control channel has room and discarded when it
is full. -/
theorem C1_hub_backpressure {α : Type} (m : α) (cs : List (Client α))
    (hnd : (cs.map Client.id).Nodup) :
    (∀ c ∈ cs, c.outbox.length < c.cap →
      ({ c with outbox := c.outbox ++ [m] } : Client α) ∈ hubBroadcast m cs) ∧
    (∀ c ∈ cs, ¬ c.outbox.length < c.cap →
      (∀ c' ∈ hubBroadcast m cs, c'.id ≠ c.id) ∧ c ∈ hubOverflowed m cs) ∧
    (∀ (qcap : Nat) (q : List α), q.length < qcap →
      broadcastSend qcap q m = q ++ [m]) ∧
    (∀ (qcap : Nat) (q : List α), ¬ q.length < qcap →
      broadcastSend qcap q m = q) := by
  refine ⟨?_, ?_, ?_, ?_⟩
  · intro c hc hroom
    refine List.mem_filterMap.mpr ⟨c, hc, ?_⟩
    simp [deliverTo, hroom]
  · intro c hc hfull
    constructor
    · intro c' hc' hid
      obtain ⟨a, ha, hda⟩ := List.mem_filterMap.mp hc'
      have haid : a.id = c.id := (deliverTo_id m a c' hda) ▸ hid
      have : a = c := List.inj_on_of_nodup_map hnd ha hc haid
      subst this
      unfold deliverTo at hda
      simp [hfull] at hda
    · refine List.mem_filter.mpr ⟨hc, ?_⟩
      simp [deliverTo, hfull]
  · intro qcap q h
    simp [broadcastSend, h]
  · intro qcap q h
    simp [broadcastSend, h]

/-- Witness for C1 at a hub with one draining subscriber (room for the
envelope) and one full subscriber: the first receives the envelope, the
second is dropped. -/
theorem C1_witness :
    (({ id := 1, outbox := [7], cap := 2 } : Client Nat) ∈
      hubBroadcast 7 [{ id := 1, outbox := [], cap := 2 },
                      { id := 2, outbox := [3, 4], cap := 2 }]) ∧
    (({ id := 2, outbox := [3, 4], cap := 2 } : Client Nat) ∈
      hubOverflowed 7 [{ id := 1, outbox := [], cap := 2 },
                       { id := 2, outbox := [3, 4], cap := 2 }]) := by
  have h := C1_hub_backpressure 7
    [({ id := 1, outbox := [], cap := 2 } : Client Nat),
     { id := 2, outbox := [3, 4], cap := 2 }] (by decide)
  refine ⟨?_, ?_⟩
  · have h1 := h.1 { id := 1, outbox := [], cap := 2 } (by simp) (by decide)
    simpa using h1
  · exact (h.2.1 { id := 2, outbox := [3, 4], cap := 2 } (by simp) (by decide)).2

/-! ### C2: chunk-partition invariance of follow-mode assembly -/

/-- C2: follow-mode assembly is NOT invariant under how the raw stream is
partitioned into read chunks: the stream consisting of the single header
line for an ERROR record delivers that record when read whole, but delivers
nothing when the same bytes arrive split in the middle of the line, because
the chunk loop treats each fragment of a chunk as a complete line. -/
theorem C2_chunk_split_loses_records :
    followDelivered 0 [("2024/01/01 10:00:00 [x] [ERROR] boom".toList)] =
      [{ timestamp := tsEncode 2024 1 1 10 0 0, level := ("ERROR".toList),
         message := ("boom".toList) }] ∧
    followDelivered 0 [("2024/01/01 10:00:00 [x] [ER".toList),
                       ("ROR] boom".toList)] = [] ∧
    ("2024/01/01 10:00:00 [x] [ER".toList) ++ ("ROR] boom".toList) =
      ("2024/01/01 10:00:00 [x] [ERROR] boom".toList) :=
  ⟨by decide, by decide, by decide⟩

/-! ### C5: continuation line before any header in the query path -/

/-- C5 counterexample: a continuation line arriving before any header line is
silently discarded by the query path, not emitted as a standalone INFO
record: the parse of a garbage line followed by one header yields exactly
the one header record. -/
theorem C5_counterexample :
    parseLogs 0 ("garbage line\n2024/01/01 10:00:00 [x] [INFO] ok".toList)
        ⟨0, [], [], []⟩ =
      [{ timestamp := tsEncode 2024 1 1 10 0 0, level := ("INFO".toList),
         message := ("ok".toList) }] := by
  decide

/-- C5 (amended): in the query path, continuation lines that arrive before
any header-matching line are silently discarded: a prefix of non-header
lines contributes nothing to the parse. -/
theorem C5_leading_continuations_dropped (now : Nat) (f : LogFilter) :
    ∀ (pre post : List (List Char)),
      (∀ l ∈ pre, matchHeader (trimStr l) = none) →
      parseLoop now f (pre ++ post) none = parseLoop now f post none := by
  intro pre
  induction pre with
  | nil => intro post _; rfl
  | cons l ls ih =>
    intro post h
    have hl := h l (List.mem_cons_self l ls)
    have hrest : ∀ x ∈ ls, matchHeader (trimStr x) = none :=
      fun x hx => h x (List.mem_cons_of_mem _ hx)
    simp only [List.cons_append, parseLoop, hl]
    split
    · exact ih post hrest
    · exact ih post hrest

/-- Witness for C5 at a concrete garbage prefix. -/
theorem C5_witness :
    parseLoop 0 ⟨0, [], [], []⟩
        ([("garbage line".toList)] ++ [("2024/01/01 10:00:00 [x] [INFO] ok".toList)]) none =
      parseLoop 0 ⟨0, [], [], []⟩ [("2024/01/01 10:00:00 [x] [INFO] ok".toList)] none :=
  C5_leading_continuations_dropped 0 ⟨0, [], [], []⟩ [("garbage line".toList)]
    [("2024/01/01 10:00:00 [x] [INFO] ok".toList)] (by decide)

/-! ### C6: cancellation surfaces as a synthetic ERROR record -/

/-- C6 counterexample: cancelling a live follow before any read delivers a
synthetic ERROR-level record to the stream (the claim says none may be
delivered on cancellation). -/
theorem C6_counterexample :
    streamEvents 0 5 ⟨0, [], [], []⟩ [ReadEvent.cancel] =
      [syntheticErrEntry 5 ctxCanceledMsg] ∧
    (syntheticErrEntry 5 ctxCanceledMsg).level = ("ERROR".toList) :=
  ⟨by decide, by decide⟩

/-- C6 (amended): caller-supplied cancellation makes FollowLogs return the
context's error, and the stream handler treats it like any other failure:
the last event delivered to the live view is the synthetic ERROR record
carrying the cancellation message. -/
theorem C6_cancellation_sends_error (now t : Nat) (f : LogFilter)
    (evs : List ReadEvent)
    (h : (followRun now evs none).2 = FollowEnd.cancelled) :
    (streamEvents now t f evs).getLast? =
      some (syntheticErrEntry t ctxCanceledMsg) := by
  unfold streamEvents
  rw [h]
  simp [endError]

/-- Witness for C6: cancellation observed at the first loop iteration. -/
theorem C6_witness :
    (streamEvents 0 5 ⟨0, [], [], []⟩ [ReadEvent.cancel]).getLast? =
      some (syntheticErrEntry 5 ctxCanceledMsg) :=
  C6_cancellation_sends_error 0 5 ⟨0, [], [], []⟩ [ReadEvent.cancel] (by decide)

/-! ### C7: same-timestamp-and-level merge in follow mode -/

/-- C7: in follow mode, a newly assembled header record with the same
timestamp and the same level as the pending record is merged into it
(messages concatenated with a newline separator) and nothing is delivered at
that step; when either the timestamp or the level differs, the pending
record is delivered and the new record becomes pending. -/
theorem C7_follow_merge (now : Nat) (cur e' : LogEntry) (raw : List Char)
    (hne : trimStr raw ≠ [])
    (hp : parseLogLine now (trimStr raw) = some e') :
    (e'.timestamp = cur.timestamp ∧ e'.level = cur.level →
      followLineStep now (some cur) raw =
        (some { cur with message := cur.message ++ '\n' :: e'.message }, [])) ∧
    (¬ (e'.timestamp = cur.timestamp ∧ e'.level = cur.level) →
      followLineStep now (some cur) raw = (some e', [cur])) := by
  have hne' : (trimStr raw == []) = false := by
    simpa using hne
  constructor
  · rintro ⟨h1, h2⟩
    simp [followLineStep, hne', hp, h1, h2]
  · intro hdiff
    have hb : (e'.timestamp == cur.timestamp && e'.level == cur.level) = false := by
      rcases Bool.eq_false_or_eq_true
          (e'.timestamp == cur.timestamp && e'.level == cur.level) with hc | hc
      · exfalso
        apply hdiff
        simpa [Bool.and_eq_true, beq_iff_eq] using hc
      · exact hc
    simp [followLineStep, hne', hp, hb]

/-- Witness for C7: a second header with the same timestamp and level is
merged into the pending record. -/
theorem C7_witness :
    followLineStep 0
        (some { timestamp := tsEncode 2024 1 1 10 0 0, level := ("INFO".toList),
                message := ("a".toList) })
        (("2024/01/01 10:00:00 [x] [INFO] b".toList)) =
      (some { timestamp := tsEncode 2024 1 1 10 0 0, level := ("INFO".toList),
              message := ("a\nb".toList) }, []) := by
  have h := (C7_follow_merge 0
    { timestamp := tsEncode 2024 1 1 10 0 0, level := ("INFO".toList),
      message := ("a".toList) }
    { timestamp := tsEncode 2024 1 1 10 0 0, level := ("INFO".toList),
      message := ("b".toList) }
    (("2024/01/01 10:00:00 [x] [INFO] b".toList))
    (by decide) (by decide)).1 ⟨rfl, rfl⟩
  exact h.trans (by decide)

/-! ### C8: determinism of the bounded fetch -/

/-- C8 counterexample: a header line whose date is out of range (month 13)
still matches the header pattern, so its timestamp falls back to the wall
clock; parsing byte-identical output at two different wall-clock instants
yields different entries. -/
theorem C8_counterexample :
    parseLogs 100 ("2024/13/01 10:00:00 [x] [INFO] hi".toList) ⟨0, [], [], []⟩ ≠
      parseLogs 200 ("2024/13/01 10:00:00 [x] [INFO] hi".toList) ⟨0, [], [], []⟩ := by
  decide

theorem parseLoop_now_indep (t1 t2 : Nat) (f : LogFilter) :
    ∀ (ls : List (List Char)) (cur : Option LogEntry),
      (∀ l ∈ ls, headerTsValidB l = true) →
      parseLoop t1 f ls cur = parseLoop t2 f ls cur := by
  intro ls
  induction ls with
  | nil => intro cur _; rfl
  | cons l ls ih =>
    intro cur h
    have hl := h l (List.mem_cons_self l ls)
    have hrest : ∀ x ∈ ls, headerTsValidB x = true :=
      fun x hx => h x (List.mem_cons_of_mem _ hx)
    simp only [parseLoop]
    split
    · exact ih cur hrest
    · cases hm : matchHeader (trimStr l) with
      | none =>
        simp only [hm]
        cases cur <;> exact ih _ hrest
      | some p =>
        obtain ⟨ts, lvl, msg⟩ := p
        have hv : (parseTimestamp ts).isSome = true := by
          unfold headerTsValidB at hl
          rw [hm] at hl
          exact hl
        obtain ⟨v, hveq⟩ := Option.isSome_iff_exists.mp hv
        simp only [hm, hveq, Option.getD_some]
        rw [ih _ hrest]

/-- C8 (amended): calling fetch twice against byte-identical source output
yields identical ordered entries, timestamps included, provided every header
line's timestamp is in range; when a header timestamp fails to parse the
entry is stamped with the wall clock of that call, which differs between the
two calls (see the counterexample). -/
theorem C8_fetch_deterministic (out : List Char) (f : LogFilter) (t1 t2 : Nat)
    (h : ∀ l ∈ splitNl out, headerTsValidB l = true) :
    parseLogs t1 out f = parseLogs t2 out f := by
  unfold parseLogs sortEntries
  rw [parseLoop_now_indep t1 t2 f (splitNl out) none h]

/-- Witness for C8 at a well-formed header and two distinct wall clocks. -/
theorem C8_witness :
    parseLogs 0 ("2024/01/01 10:00:00 [x] [INFO] ok".toList) ⟨0, [], [], []⟩ =
      parseLogs 999 ("2024/01/01 10:00:00 [x] [INFO] ok".toList) ⟨0, [], [], []⟩ :=
  C8_fetch_deterministic ("2024/01/01 10:00:00 [x] [INFO] ok".toList)
    ⟨0, [], [], []⟩ 0 999 (by decide)

/-! ### C3: the fetch-path sort -/

theorem selectPass_fst_le (x : LogEntry) (l : List LogEntry) :
    (selectPass x l).1.timestamp ≤ x.timestamp := by
  induction l generalizing x with
  | nil => simp [selectPass]
  | cons y ys ih =>
    simp only [selectPass]
    split
    · rename_i h
      simp only [entryAfter, decide_eq_true_eq] at h
      exact le_trans (ih y) (le_of_lt h)
    · exact ih x

theorem selectPass_min (x : LogEntry) (l : List LogEntry) :
    ∀ y ∈ (selectPass x l).2, (selectPass x l).1.timestamp ≤ y.timestamp := by
  induction l generalizing x with
  | nil => simp [selectPass]
  | cons y ys ih =>
    simp only [selectPass]
    split
    · rename_i h
      simp only [entryAfter, decide_eq_true_eq] at h
      intro z hz
      rcases List.mem_cons.mp hz with rfl | hz'
      · exact le_trans (selectPass_fst_le y ys) (le_of_lt h)
      · exact ih y z hz'
    · rename_i h
      simp only [entryAfter, decide_eq_true_eq] at h
      intro z hz
      rcases List.mem_cons.mp hz with rfl | hz'
      · exact le_trans (selectPass_fst_le x ys) (Nat.le_of_not_lt h)
      · exact ih x z hz'

theorem selectPass_perm (x : LogEntry) (l : List LogEntry) :
    ((selectPass x l).1 :: (selectPass x l).2).Perm (x :: l) := by
  induction l generalizing x with
  | nil => simp [selectPass]
  | cons y ys ih =>
    simp only [selectPass]
    split
    · exact (List.Perm.swap x (selectPass y ys).1 (selectPass y ys).2).trans
        ((ih y).cons x)
    · exact ((List.Perm.swap y (selectPass x ys).1 (selectPass x ys).2).trans
        ((ih x).cons y)).trans (List.Perm.swap x y ys)

theorem sortFuel_perm : ∀ (n : Nat) (l : List LogEntry), l.length = n →
    (sortFuel n l).Perm l := by
  intro n
  induction n with
  | zero => intro l _; exact List.Perm.refl l
  | succ n ih =>
    intro l h
    cases l with
    | nil => exact List.Perm.refl []
    | cons x xs =>
      have hlen : (selectPass x xs).2.length = n := by
        rw [selectPass_length]
        simpa using h
      exact (((ih _ hlen).cons (selectPass x xs).1)).trans (selectPass_perm x xs)

theorem sortFuel_sorted : ∀ (n : Nat) (l : List LogEntry), l.length = n →
    List.Pairwise (fun a b => a.timestamp ≤ b.timestamp) (sortFuel n l) := by
  intro n
  induction n with
  | zero =>
    intro l h
    rw [List.length_eq_zero] at h
    subst h
    exact List.Pairwise.nil
  | succ n ih =>
    intro l h
    cases l with
    | nil => exact List.Pairwise.nil
    | cons x xs =>
      have hlen : (selectPass x xs).2.length = n := by
        rw [selectPass_length]
        simpa using h
      refine List.Pairwise.cons ?_ (ih _ hlen)
      intro z hz
      have hz' : z ∈ (selectPass x xs).2 :=
        (sortFuel_perm n _ hlen).mem_iff.mp hz
      exact selectPass_min x xs z hz'

/-- C3 counterexample: the exchange sort is not stable: two header records
with the same timestamp (messages a then b in input order) and one earlier
record sort to c, b, a - the equal-timestamp pair comes out in reversed
relative order. -/
theorem C3_counterexample :
    parseLoop 0 ⟨0, [], [], []⟩
        (splitNl ("2024/01/01 10:00:10 [x] [INFO] a\n2024/01/01 10:00:10 [x] [INFO] b\n2024/01/01 10:00:05 [x] [INFO] c".toList)) none =
      [{ timestamp := tsEncode 2024 1 1 10 0 10, level := ("INFO".toList),
         message := ("a".toList) },
       { timestamp := tsEncode 2024 1 1 10 0 10, level := ("INFO".toList),
         message := ("b".toList) },
       { timestamp := tsEncode 2024 1 1 10 0 5, level := ("INFO".toList),
         message := ("c".toList) }] ∧
    parseLogs 0 ("2024/01/01 10:00:10 [x] [INFO] a\n2024/01/01 10:00:10 [x] [INFO] b\n2024/01/01 10:00:05 [x] [INFO] c".toList)
        ⟨0, [], [], []⟩ =
      [{ timestamp := tsEncode 2024 1 1 10 0 5, level := ("INFO".toList),
         message := ("c".toList) },
       { timestamp := tsEncode 2024 1 1 10 0 10, level := ("INFO".toList),
         message := ("b".toList) },
       { timestamp := tsEncode 2024 1 1 10 0 10, level := ("INFO".toList),
         message := ("a".toList) }] :=
  ⟨by decide, by decide⟩

/-- C3 (amended): after assembly and filtering the returned entries are
sorted ascending by timestamp and are a permutation of the assembled,
filtered entries; the sort is an exchange sort and is NOT stable: entries
with equal timestamps may appear in reversed relative order (see the
counterexample). -/
theorem C3_sorted_ascending (now : Nat) (out : List Char) (f : LogFilter) :
    List.Pairwise (fun a b => a.timestamp ≤ b.timestamp) (parseLogs now out f) ∧
    (parseLogs now out f).Perm (parseLoop now f (splitNl out) none) :=
  ⟨sortFuel_sorted _ _ rfl, sortFuel_perm _ _ rfl⟩

/-! ### C4: the text-search filter in the two paths -/

theorem startsWithL_iff (p : List Char) :
    ∀ (s : List Char), startsWithL s p = true ↔ ∃ t, s = p ++ t := by
  induction p with
  | nil =>
    intro s
    simp [startsWithL]
  | cons d ds ih =>
    intro s
    cases s with
    | nil => simp [startsWithL]
    | cons c cs =>
      simp only [startsWithL, Bool.and_eq_true, beq_iff_eq, List.cons_append]
      constructor
      · rintro ⟨rfl, h⟩
        obtain ⟨t, rfl⟩ := (ih cs).mp h
        exact ⟨t, rfl⟩
      · rintro ⟨t, h⟩
        injection h with h1 h2
        exact ⟨h1, (ih cs).mpr ⟨t, h2⟩⟩

theorem strContains_iff (sub : List Char) :
    ∀ (s : List Char), strContains s sub = true ↔ ∃ a b, s = a ++ sub ++ b := by
  intro s
  induction s with
  | nil =>
    rw [show strContains [] sub = startsWithL [] sub from rfl, startsWithL_iff]
    constructor
    · rintro ⟨t, ht⟩
      obtain ⟨hsub, -⟩ := List.append_eq_nil.mp ht.symm
      exact ⟨[], [], by simp [hsub]⟩
    · rintro ⟨a, b, hab⟩
      obtain ⟨h1, -⟩ := List.append_eq_nil.mp hab.symm
      obtain ⟨-, hsub⟩ := List.append_eq_nil.mp h1
      exact ⟨[], by simp [hsub]⟩
  | cons c t ih =>
    simp only [strContains, Bool.or_eq_true, ih, startsWithL_iff]
    constructor
    · rintro (⟨x, hx⟩ | ⟨a, b, hab⟩)
      · exact ⟨[], x, by simpa using hx⟩
      · exact ⟨c :: a, b, by simp [hab]⟩
    · rintro ⟨a, b, hab⟩
      cases a with
      | nil =>
        left
        exact ⟨b, by simpa using hab⟩
      | cons a0 as =>
        right
        rw [List.cons_append, List.cons_append] at hab
        injection hab with h1 h2
        exact ⟨as, b, by simpa using h2⟩

theorem goIndexOfAux_nonneg_iff (sub : List Char) :
    ∀ (s : List Char) (i : Nat),
      0 ≤ goIndexOfAux s sub i ↔ ∃ a b, s = a ++ sub ++ b := by
  intro s
  induction s with
  | nil =>
    intro i
    simp only [goIndexOfAux]
    split
    · rename_i hsub
      rw [List.isEmpty_iff] at hsub
      constructor
      · intro _
        exact ⟨[], [], by simp [hsub]⟩
      · intro _
        exact Int.ofNat_nonneg i
    · rename_i hsub
      rw [List.isEmpty_iff] at hsub
      constructor
      · intro h
        exact absurd h (by decide)
      · rintro ⟨a, b, hab⟩
        exfalso
        obtain ⟨h1, -⟩ := List.append_eq_nil.mp hab.symm
        obtain ⟨-, h3⟩ := List.append_eq_nil.mp h1
        exact hsub h3
  | cons c t ih =>
    intro i
    simp only [goIndexOfAux]
    split
    · rename_i hlt
      constructor
      · intro h
        exact absurd h (by decide)
      · rintro ⟨a, b, hab⟩
        exfalso
        have hge : sub.length ≤ (c :: t).length := by
          rw [hab]
          simp only [List.length_append]
          omega
        omega
    · split
      · rename_i hsw
        constructor
        · intro _
          obtain ⟨x, hx⟩ := (startsWithL_iff sub (c :: t)).mp hsw
          exact ⟨[], x, by simpa using hx⟩
        · intro _
          exact Int.ofNat_nonneg i
      · rename_i hlt hsw
        rw [ih (i + 1)]
        constructor
        · rintro ⟨a, b, hab⟩
          exact ⟨c :: a, b, by simp [hab]⟩
        · rintro ⟨a, b, hab⟩
          cases a with
          | nil =>
            exfalso
            exact hsw ((startsWithL_iff sub (c :: t)).mpr ⟨b, by simpa using hab⟩)
          | cons a0 as =>
            rw [List.cons_append, List.cons_append] at hab
            injection hab with h1 h2
            exact ⟨as, b, by simpa using h2⟩

theorem goContains_iff (s sub : List Char) :
    goContains s sub = true ↔ ∃ a b, s = a ++ sub ++ b := by
  unfold goContains
  simp only [Bool.and_eq_true, Bool.or_eq_true, decide_eq_true_eq, beq_iff_eq]
  constructor
  · rintro ⟨hlen, (rfl | ⟨hlt, hidx⟩)⟩
    · exact ⟨[], [], by simp⟩
    · exact (goIndexOfAux_nonneg_iff sub s 0).mp hidx
  · rintro ⟨a, b, hab⟩
    subst hab
    refine ⟨by simp only [List.length_append]; omega, ?_⟩
    by_cases hs : a ++ sub ++ b = sub
    · left
      exact hs
    · right
      refine ⟨?_, (goIndexOfAux_nonneg_iff sub _ 0).mpr ⟨a, b, rfl⟩⟩
      rcases Nat.lt_or_ge sub.length (a ++ sub ++ b).length with h | h
      · exact h
      · exfalso
        apply hs
        simp only [List.length_append] at h
        have ha : a = [] := List.length_eq_zero.mp (by omega)
        have hb : b = [] := List.length_eq_zero.mp (by omega)
        simp [ha, hb]

/-- C4 counterexample: the entry with level ERROR and message boom passes
the bounded-fetch filter for search text err (case-insensitive, level
included) but is rejected by the live-follow filter, whose hand-rolled test
is case-sensitive and looks at the message only. -/
theorem C4_counterexample :
    passesFilter ⟨0, [], [], ("err".toList)⟩
      { timestamp := 0, level := ("ERROR".toList), message := ("boom".toList) } = true ∧
    handlerPass ⟨0, [], [], ("err".toList)⟩
      { timestamp := 0, level := ("ERROR".toList), message := ("boom".toList) } = false :=
  ⟨by decide, by decide⟩

/-- C4 (amended): in the bounded fetch path an entry passes the non-empty
search filter iff the lowercased search text occurs in the lowercased
message or the lowercased level; in the live follow path it passes iff the
search text occurs verbatim (case-sensitively) in the message alone. -/
theorem C4_search_filter (e : LogEntry) (s : List Char) (hs : s ≠ []) :
    (searchMatches ⟨0, [], [], s⟩ e = true ↔
      isSubstrOf (lowerStr s) (lowerStr e.message) ∨
      isSubstrOf (lowerStr s) (lowerStr e.level)) ∧
    (handlerSearchPass ⟨0, [], [], s⟩ e = true ↔ isSubstrOf s e.message) := by
  have hs' : (s == ([] : List Char)) = false := by
    simpa using hs
  constructor
  · simp only [searchMatches, hs', Bool.false_or, Bool.or_eq_true,
      strContains_iff, isSubstrOf]
  · simp only [handlerSearchPass, hs', Bool.false_or, goContains_iff, isSubstrOf]

/-- Witness for C4 at the counterexample's entry and search text. -/
theorem C4_witness :
    (searchMatches ⟨0, [], [], ("err".toList)⟩
        { timestamp := 0, level := ("ERROR".toList), message := ("boom".toList) } = true ↔
      isSubstrOf (lowerStr ("err".toList)) (lowerStr ("boom".toList)) ∨
      isSubstrOf (lowerStr ("err".toList)) (lowerStr ("ERROR".toList))) ∧
    (handlerSearchPass ⟨0, [], [], ("err".toList)⟩
        { timestamp := 0, level := ("ERROR".toList), message := ("boom".toList) } = true ↔
      isSubstrOf ("err".toList) ("boom".toList)) :=
  C4_search_filter
    { timestamp := 0, level := ("ERROR".toList), message := ("boom".toList) }
    ("err".toList) (by decide)

/-! ### Shared lemmas about trimming, splitting, and the header matcher -/

theorem head_dropWhile_false (p : Char → Bool) :
    ∀ (s : List Char) (c : Char), (List.dropWhile p s).head? = some c → p c = false := by
  intro s
  induction s with
  | nil => intro c h; cases h
  | cons x xs ih =>
    intro c h
    rw [List.dropWhile_cons] at h
    split at h
    · exact ih c h
    · rename_i hx
      cases h
      exact Bool.eq_false_iff.mpr hx

theorem dropWhile_decomp (p : Char → Bool) :
    ∀ (s : List Char), ∃ a, s = a ++ List.dropWhile p s := by
  intro s
  induction s with
  | nil => exact ⟨[], rfl⟩
  | cons x xs ih =>
    rw [List.dropWhile_cons]
    split
    · obtain ⟨a, ha⟩ := ih
      exact ⟨x :: a, by rw [List.cons_append, ← ha]⟩
    · exact ⟨[], rfl⟩

theorem head_append_left {α : Type} (x y : List α) (h : x ≠ []) :
    (x ++ y).head? = x.head? := by
  cases x with
  | nil => exact absurd rfl h
  | cons a as => rfl

theorem mem_dropWhile_imp (p : Char → Bool) (s : List Char) (c : Char)
    (h : c ∈ List.dropWhile p s) : c ∈ s := by
  obtain ⟨a, ha⟩ := dropWhile_decomp p s
  rw [ha]
  exact List.mem_append.mpr (Or.inr h)

theorem mem_trim_imp (s : List Char) (c : Char) (h : c ∈ trimStr s) : c ∈ s := by
  unfold trimStr at h
  rw [List.mem_reverse] at h
  have h2 := mem_dropWhile_imp _ _ _ h
  rw [List.mem_reverse] at h2
  exact mem_dropWhile_imp _ _ _ h2

theorem trim_last_not_space (s : List Char) (c : Char)
    (h : (trimStr s).reverse.head? = some c) : isSpaceCh c = false := by
  unfold trimStr at h
  rw [List.reverse_reverse] at h
  exact head_dropWhile_false _ _ _ h

theorem trim_head_not_space (s : List Char) (c : Char)
    (h : (trimStr s).head? = some c) : isSpaceCh c = false := by
  unfold trimStr at h
  set u := (List.dropWhile isSpaceCh s).reverse.dropWhile isSpaceCh with hu
  have hne : u ≠ [] := by
    intro habs
    rw [habs] at h
    cases h
  have hd : ((List.dropWhile isSpaceCh s).reverse).reverse.head? = some c := by
    obtain ⟨a, ha⟩ := dropWhile_decomp isSpaceCh (List.dropWhile isSpaceCh s).reverse
    rw [← hu] at ha
    rw [ha, List.reverse_append,
      head_append_left _ _ (by simp [hne])]
    exact h
  rw [List.reverse_reverse] at hd
  exact head_dropWhile_false _ _ _ hd

theorem trim_noEdgeSpace (s : List Char) : noEdgeSpaceB (trimStr s) = true := by
  unfold noEdgeSpaceB
  rw [Bool.and_eq_true]
  constructor
  · cases h : (trimStr s).head? with
    | none => rfl
    | some c => simp [Option.all, trim_head_not_space s c h]
  · cases h : (trimStr s).reverse.head? with
    | none => rfl
    | some c => simp [Option.all, trim_last_not_space s c h]

theorem splitNl_ne_nil : ∀ (s : List Char), splitNl s ≠ [] := by
  intro s
  induction s with
  | nil => simp [splitNl]
  | cons c cs ih =>
    simp only [splitNl]
    split
    · simp
    · cases h : splitNl cs with
      | nil => exact absurd h ih
      | cons l ls => simp [h]

theorem splitNl_append : ∀ (a b : List Char),
    splitNl (a ++ '\n' :: b) = splitNl a ++ splitNl b := by
  intro a b
  induction a with
  | nil => simp [splitNl]
  | cons c cs ih =>
    by_cases hc : c = '\n'
    · subst hc
      simp [splitNl, ih]
    · simp only [List.cons_append, splitNl, if_neg hc]
      rw [show splitNl (cs.append ('\n' :: b)) = splitNl cs ++ splitNl b from ih]
      cases h : splitNl cs with
      | nil => exact absurd h (splitNl_ne_nil cs)
      | cons l ls => rfl

theorem mem_splitNl_no_nl : ∀ (s : List Char), ∀ l ∈ splitNl s, '\n' ∉ l := by
  intro s
  induction s with
  | nil =>
    intro l hl
    simp only [splitNl, List.mem_singleton] at hl
    subst hl
    simp
  | cons c cs ih =>
    intro l hl
    simp only [splitNl] at hl
    split at hl
    · rcases List.mem_cons.mp hl with rfl | hl'
      · simp
      · exact ih l hl'
    · rename_i hc
      cases h : splitNl cs with
      | nil => exact absurd h (splitNl_ne_nil cs)
      | cons m ms =>
        rw [h] at hl
        rcases List.mem_cons.mp hl with rfl | hl'
        · intro habs
          rcases List.mem_cons.mp habs with heq | hmem
          · exact hc heq.symm
          · exact ih m (h ▸ List.mem_cons_self m ms) hmem
        · exact ih l (h ▸ List.mem_cons_of_mem m hl')

theorem splitNl_single : ∀ (l : List Char), '\n' ∉ l → splitNl l = [l] := by
  intro l
  induction l with
  | nil => intro _; rfl
  | cons c cs ih =>
    intro h
    have hc : ¬ c = '\n' := fun habs => h (habs ▸ List.mem_cons_self c cs)
    have hcs : '\n' ∉ cs := fun habs => h (List.mem_cons_of_mem c habs)
    simp only [splitNl, if_neg hc, ih hcs]

theorem matchShape_suffix : ∀ (pat s : List Char) (m r : List Char),
    matchShape pat s = some (m, r) → ∃ a, s = a ++ r := by
  intro pat
  induction pat with
  | nil =>
    intro s m r h
    simp only [matchShape, Option.some.injEq, Prod.mk.injEq] at h
    exact ⟨[], by rw [h.2]; rfl⟩
  | cons p ps ih =>
    intro s m r h
    cases s with
    | nil => cases h
    | cons c cs =>
      simp only [matchShape] at h
      by_cases hcond : (if p = 'D' then isDigitCh c else p == c) = true
      · rw [if_pos hcond] at h
        cases hm : matchShape ps cs with
        | none => rw [hm] at h; cases h
        | some q =>
          obtain ⟨m', r'⟩ := q
          rw [hm] at h
          simp only [Option.some.injEq, Prod.mk.injEq] at h
          obtain ⟨-, hr⟩ := h
          obtain ⟨a, ha⟩ := ih cs m' r' hm
          exact ⟨c :: a, by rw [List.cons_append, ha, hr]⟩
      · rw [if_neg hcond] at h
        cases h

theorem all_takeWhile (p : Char → Bool) :
    ∀ (l : List Char), (l.takeWhile p).all p = true := by
  intro l
  induction l with
  | nil => rfl
  | cons c cs ih =>
    rw [List.takeWhile_cons]
    split
    · rename_i hc
      simp [hc, ih]
    · rfl

theorem levelClose_props (l : List Char) (lvl msg : List Char)
    (h : levelClose l = some (lvl, msg)) :
    (∃ a, l = a ++ ' ' :: msg) ∧ lvl ≠ [] ∧ lvl.all isUpperAZ = true := by
  unfold levelClose at h
  split at h
  · rename_i r
    split at h
    · rename_i msg' hdrop
      split at h
      · cases h
      · rename_i hemp
        simp only [Option.some.injEq, Prod.mk.injEq] at h
        obtain ⟨hlvl, hmsg⟩ := h
        refine ⟨?_, ?_, ?_⟩
        · obtain ⟨a, ha⟩ := dropWhile_decomp isUpperAZ r
          rw [hdrop] at ha
          refine ⟨' ' :: '[' :: (a ++ [']']), ?_⟩
          rw [ha, hmsg]
          simp
        · rw [← hlvl]
          simp only [List.isEmpty_iff] at hemp
          exact hemp
        · rw [← hlvl]
          exact all_takeWhile isUpperAZ r
    · cases h
  · cases h

theorem lazyScan_props : ∀ (l : List Char) (lvl msg : List Char),
    lazyScan l = some (lvl, msg) →
    (∃ a, l = a ++ ' ' :: msg) ∧ lvl ≠ [] ∧ lvl.all isUpperAZ = true := by
  intro l
  induction l with
  | nil => intro lvl msg h; cases h
  | cons c r ih =>
    intro lvl msg h
    simp only [lazyScan] at h
    split at h
    · cases hlc : levelClose r with
      | none =>
        rw [hlc] at h
        obtain ⟨⟨a, ha⟩, hrest⟩ := ih lvl msg h
        exact ⟨⟨c :: a, by rw [List.cons_append, ← ha]⟩, hrest⟩
      | some q =>
        obtain ⟨lvl', msg'⟩ := q
        rw [hlc] at h
        cases h
        obtain ⟨⟨a, ha⟩, hrest⟩ := levelClose_props r lvl msg hlc
        exact ⟨⟨c :: a, by rw [List.cons_append, ← ha]⟩, hrest⟩
    · obtain ⟨⟨a, ha⟩, hrest⟩ := ih lvl msg h
      exact ⟨⟨c :: a, by rw [List.cons_append, ← ha]⟩, hrest⟩

theorem matchHeader_props (l : List Char) (ts lvl msg : List Char)
    (h : matchHeader l = some (ts, lvl, msg)) :
    (∃ a, l = a ++ ' ' :: msg) ∧ lvl ≠ [] ∧ lvl.all isUpperAZ = true := by
  unfold matchHeader at h
  split at h
  · rename_i ts' rest hms
    split at h
    · rename_i lvl' msg' hlz
      simp only [Option.some.injEq, Prod.mk.injEq] at h
      obtain ⟨h1, h2, h3⟩ := h
      subst h1
      subst h2
      subst h3
      obtain ⟨⟨a2, ha2⟩, hrest⟩ := lazyScan_props rest _ _ hlz
      obtain ⟨a1, ha1⟩ := matchShape_suffix tsShape l _ _ hms
      refine ⟨⟨a1 ++ (' ' :: '[' :: a2), ?_⟩, hrest⟩
      rw [ha1, ha2]
      simp
    · cases h
  · cases h

theorem tail_append_of_ne_nil {α : Type} (x y : List α) (h : x ≠ []) :
    (x ++ y).tail = x.tail ++ y := by
  cases x with
  | nil => exact absurd rfl h
  | cons a as => rfl

theorem parseLogLine_level (now : Nat) (l : List Char) (e : LogEntry)
    (h : parseLogLine now l = some e) : LevelOk e := by
  unfold parseLogLine at h
  cases hm : matchHeader l with
  | none => rw [hm] at h; cases h
  | some p =>
    obtain ⟨ts, lvl, msg⟩ := p
    rw [hm] at h
    injection h with h'
    subst h'
    obtain ⟨-, h1, h2⟩ := matchHeader_props l ts lvl msg hm
    exact ⟨h1, h2⟩

/-! ### C9: whitespace handling of assembled messages -/

theorem trim_noTrailSpace (s : List Char) : noTrailSpaceB (trimStr s) = true := by
  unfold noTrailSpaceB
  cases h : (trimStr s).reverse.head? with
  | none => rfl
  | some c => simp [Option.all, trim_last_not_space s c h]

theorem parseLogLine_msg (now : Nat) (raw : List Char) (e : LogEntry)
    (hnl : ('\n') ∉ raw)
    (hp : parseLogLine now (trimStr raw) = some e) :
    e.message ≠ [] ∧ noTrailSpaceB e.message = true ∧ ('\n') ∉ e.message := by
  unfold parseLogLine at hp
  cases hm : matchHeader (trimStr raw) with
  | none => rw [hm] at hp; cases hp
  | some p =>
    obtain ⟨ts, lvl, msg⟩ := p
    rw [hm] at hp
    injection hp with hp'
    subst hp'
    obtain ⟨⟨a, ha⟩, -⟩ := matchHeader_props (trimStr raw) ts lvl msg hm
    have hnl_trim : ('\n') ∉ trimStr raw :=
      fun habs => hnl (mem_trim_imp raw '\n' habs)
    have hmsg_nl : ('\n') ∉ msg := fun habs =>
      hnl_trim (ha ▸ List.mem_append.mpr (Or.inr (List.mem_cons_of_mem ' ' habs)))
    have hmsg_ne : msg ≠ [] := by
      intro habs
      subst habs
      have hsp : (trimStr raw).reverse.head? = some ' ' := by
        rw [ha]
        simp
      exact absurd (trim_last_not_space raw ' ' hsp) (by decide)
    have hmsg_trail : noTrailSpaceB msg = true := by
      unfold noTrailSpaceB
      cases hh : msg.reverse.head? with
      | none => rfl
      | some c =>
        have hrev_ne : msg.reverse ≠ [] := by
          intro habs
          rw [habs] at hh
          cases hh
        have hx : (' ' :: msg).reverse ≠ [] := by simp
        have hc : (trimStr raw).reverse.head? = some c := by
          rw [ha, List.reverse_append, head_append_left _ _ hx,
            List.reverse_cons, head_append_left _ _ hrev_ne]
          exact hh
        simp [Option.all, trim_last_not_space raw c hc]
    exact ⟨hmsg_ne, hmsg_trail, hmsg_nl⟩

theorem followLineStep_tail (now : Nat) (st : Option LogEntry) (raw : List Char)
    (hnl : ('\n') ∉ raw)
    (hst : ∀ e0, st = some e0 → msgTailNoTrail e0) :
    (∀ e0, (followLineStep now st raw).1 = some e0 → msgTailNoTrail e0) ∧
    (∀ e ∈ (followLineStep now st raw).2, msgTailNoTrail e) := by
  have hnl_trim : ('\n') ∉ trimStr raw :=
    fun habs => hnl (mem_trim_imp raw '\n' habs)
  cases st with
  | none =>
    simp only [followLineStep]
    by_cases hblank : (trimStr raw == []) = true
    · rw [if_pos hblank]
      exact ⟨(fun _ h => nomatch h), (fun _ he => nomatch he)⟩
    · rw [if_neg hblank]
      cases hp : parseLogLine now (trimStr raw) with
      | none => exact ⟨(fun _ h => nomatch h), (fun _ he => nomatch he)⟩
      | some entry =>
        obtain ⟨-, -, hmnl⟩ := parseLogLine_msg now raw entry hnl hp
        refine ⟨?_, (fun _ he => nomatch he)⟩
        intro e1 h1
        injection h1 with h1'
        subst h1'
        intro l hl
        rw [splitNl_single entry.message hmnl] at hl
        cases hl
  | some e0 =>
    simp only [followLineStep]
    by_cases hblank : (trimStr raw == []) = true
    · rw [if_pos hblank]
      exact ⟨(fun e1 h1 => hst e1 h1), (fun _ he => nomatch he)⟩
    · rw [if_neg hblank]
      have htrimne : trimStr raw ≠ [] := by
        simpa using hblank
      cases hp : parseLogLine now (trimStr raw) with
      | none =>
        refine ⟨?_, (fun _ he => nomatch he)⟩
        intro e1 h1
        injection h1 with h1'
        subst h1'
        intro l hl
        simp only at hl
        rw [splitNl_append, splitNl_single (trimStr raw) hnl_trim,
          tail_append_of_ne_nil _ _ (splitNl_ne_nil e0.message)] at hl
        rcases List.mem_append.mp hl with h | h
        · exact hst e0 rfl l h
        · rcases List.mem_singleton.mp h with rfl
          exact ⟨htrimne, trim_noTrailSpace raw⟩
      | some entry =>
        obtain ⟨hmne, hmtr, hmnl⟩ := parseLogLine_msg now raw entry hnl hp
        dsimp only
        split
        · refine ⟨?_, (fun _ he => nomatch he)⟩
          intro e1 h1
          injection h1 with h1'
          subst h1'
          intro l hl
          simp only at hl
          rw [splitNl_append, splitNl_single entry.message hmnl,
            tail_append_of_ne_nil _ _ (splitNl_ne_nil e0.message)] at hl
          rcases List.mem_append.mp hl with h | h
          · exact hst e0 rfl l h
          · rcases List.mem_singleton.mp h with rfl
            exact ⟨hmne, hmtr⟩
        · refine ⟨?_, ?_⟩
          · intro e1 h1
            injection h1 with h1'
            subst h1'
            intro l hl
            rw [splitNl_single entry.message hmnl] at hl
            cases hl
          · intro e he
            rcases List.mem_singleton.mp he with rfl
            exact hst _ rfl

theorem followLines_tail (now : Nat) :
    ∀ (ls : List (List Char)) (st : Option LogEntry),
      (∀ raw ∈ ls, ('\n') ∉ raw) →
      (∀ e0, st = some e0 → msgTailNoTrail e0) →
      (∀ e0, (followLines now ls st).1 = some e0 → msgTailNoTrail e0) ∧
      (∀ e ∈ (followLines now ls st).2, msgTailNoTrail e) := by
  intro ls
  induction ls with
  | nil =>
    intro st _ hst
    exact ⟨hst, (fun _ he => nomatch he)⟩
  | cons l ls ih =>
    intro st hnl hst
    simp only [followLines]
    obtain ⟨h1, h2⟩ :=
      followLineStep_tail now st l (hnl l (List.mem_cons_self _ _)) hst
    obtain ⟨h3, h4⟩ := ih _ (fun x hx => hnl x (List.mem_cons_of_mem _ hx)) h1
    refine ⟨h3, ?_⟩
    intro e he
    rcases List.mem_append.mp he with h | h
    · exact h2 e h
    · exact h4 e h

theorem followRun_tail (now : Nat) :
    ∀ (evs : List ReadEvent) (st : Option LogEntry),
      (∀ e0, st = some e0 → msgTailNoTrail e0) →
      ∀ e ∈ (followRun now evs st).1, msgTailNoTrail e := by
  intro evs
  induction evs with
  | nil => intro st _ e he; cases he
  | cons ev rest ih =>
    intro st hst e he
    cases ev with
    | cancel => cases he
    | readErr m =>
      simp only [followRun, flushPending] at he
      cases st with
      | none => cases he
      | some e0 =>
        rcases List.mem_singleton.mp he with rfl
        exact hst _ rfl
    | chunk s =>
      simp only [followRun, followChunk] at he
      obtain ⟨h1, h2⟩ := followLines_tail now (splitNl s) st
        (fun raw hr => mem_splitNl_no_nl s raw hr) hst
      rcases List.mem_append.mp he with h | h
      · exact h2 e h
      · exact ih _ h1 e h

theorem parseLoop_tail_lines (now : Nat) (f : LogFilter) :
    ∀ (ls : List (List Char)) (cur : Option LogEntry),
      (∀ raw ∈ ls, ('\n') ∉ raw) →
      (∀ e0, cur = some e0 →
        ∀ l ∈ (splitNl e0.message).tail, l ≠ [] ∧ noEdgeSpaceB l = true) →
      ∀ e ∈ parseLoop now f ls cur,
        ∀ l ∈ (splitNl e.message).tail, l ≠ [] ∧ noEdgeSpaceB l = true := by
  intro ls
  induction ls with
  | nil =>
    intro cur hnl hc e he
    cases cur with
    | none => cases he
    | some e0 =>
      simp only [parseLoop] at he
      split at he
      · rcases List.mem_singleton.mp he with rfl
        exact hc _ rfl
      · cases he
  | cons raw ls ih =>
    intro cur hnl hc e he
    have hnl_raw : ('\n') ∉ raw := hnl raw (List.mem_cons_self _ _)
    have hnl_rest : ∀ x ∈ ls, ('\n') ∉ x :=
      fun x hx => hnl x (List.mem_cons_of_mem _ hx)
    have hnl_trim : ('\n') ∉ trimStr raw :=
      fun habs => hnl_raw (mem_trim_imp raw '\n' habs)
    cases cur with
    | none =>
      simp only [parseLoop] at he
      by_cases hblank : (trimStr raw == []) = true
      · rw [if_pos hblank] at he
        exact ih none hnl_rest (fun _ h => nomatch h) e he
      · rw [if_neg hblank] at he
        cases hm : matchHeader (trimStr raw) with
        | none =>
          rw [hm] at he
          exact ih none hnl_rest (fun _ h => nomatch h) e he
        | some p =>
          obtain ⟨ts, lvl, msg⟩ := p
          rw [hm] at he
          rcases List.mem_append.mp he with hfl | hrec
          · cases hfl
          · refine ih _ hnl_rest ?_ e hrec
            intro e1 h1
            injection h1 with h1'
            subst h1'
            intro l hl
            obtain ⟨⟨a, ha⟩, -⟩ := matchHeader_props (trimStr raw) ts lvl msg hm
            have hmsg_nl : ('\n') ∉ msg := by
              intro habs
              exact hnl_trim
                (ha ▸ List.mem_append.mpr (Or.inr (List.mem_cons_of_mem ' ' habs)))
            simp only at hl
            rw [splitNl_single msg hmsg_nl] at hl
            cases hl
    | some e0 =>
      simp only [parseLoop] at he
      by_cases hblank : (trimStr raw == []) = true
      · rw [if_pos hblank] at he
        exact ih _ hnl_rest hc e he
      · rw [if_neg hblank] at he
        have htrimne : trimStr raw ≠ [] := by
          simpa using hblank
        cases hm : matchHeader (trimStr raw) with
        | none =>
          rw [hm] at he
          refine ih _ hnl_rest ?_ e he
          intro e1 h1
          injection h1 with h1'
          subst h1'
          intro l hl
          simp only at hl
          rw [splitNl_append, splitNl_single (trimStr raw) hnl_trim,
            tail_append_of_ne_nil _ _ (splitNl_ne_nil e0.message)] at hl
          rcases List.mem_append.mp hl with h | h
          · exact hc e0 rfl l h
          · rcases List.mem_singleton.mp h with rfl
            exact ⟨htrimne, trim_noEdgeSpace raw⟩
        | some p =>
          obtain ⟨ts, lvl, msg⟩ := p
          rw [hm] at he
          rcases List.mem_append.mp he with hfl | hrec
          · split at hfl
            · rcases List.mem_singleton.mp hfl with rfl
              exact hc _ rfl
            · cases hfl
          · refine ih _ hnl_rest ?_ e hrec
            intro e1 h1
            injection h1 with h1'
            subst h1'
            intro l hl
            obtain ⟨⟨a, ha⟩, -⟩ := matchHeader_props (trimStr raw) ts lvl msg hm
            have hmsg_nl : ('\n') ∉ msg := by
              intro habs
              exact hnl_trim
                (ha ▸ List.mem_append.mpr (Or.inr (List.mem_cons_of_mem ' ' habs)))
            simp only at hl
            rw [splitNl_single msg hmsg_nl] at hl
            cases hl

/-- C9 counterexample: the header regexp captures the message one character
after the closing bracket of the level, so extra spaces after the level
token survive into the assembled message: this entry's message is the
single line with a leading space, which has edge whitespace. -/
theorem C9_counterexample :
    parseLogs 0 ("2024/01/01 10:00:00 [x] [INFO]  hi".toList) ⟨0, [], [], []⟩ =
      [{ timestamp := tsEncode 2024 1 1 10 0 0, level := ("INFO".toList),
         message := (" hi".toList) }] ∧
    noEdgeSpaceB (" hi".toList) = false :=
  ⟨by decide, by decide⟩

/-- C9 (amended): in both paths every raw line is trimmed and whitespace-only
lines are discarded, so no empty continuation line is ever appended.  In the
query path every line after the first of an assembled message is nonempty
with no leading and no trailing whitespace.  In the follow path such lines
are nonempty with no trailing whitespace, but only that: merging two records
with equal timestamp and level appends the second record's header-captured
message, which can carry leading whitespace (left over after the level
token) into a line after the first, as the concrete merge here shows. -/
theorem C9_message_lines :
    (∀ (now : Nat) (out : List Char) (f : LogFilter), ∀ e ∈ parseLogs now out f,
      ∀ l ∈ (splitNl e.message).tail, l ≠ [] ∧ noEdgeSpaceB l = true) ∧
    (∀ (now : Nat) (chunks : List (List Char)), ∀ e ∈ followDelivered now chunks,
      ∀ l ∈ (splitNl e.message).tail, l ≠ [] ∧ noTrailSpaceB l = true) ∧
    (followDelivered 0
        [("2024/01/01 10:00:00 [x] [INFO] a\n2024/01/01 10:00:00 [x] [INFO]  hi".toList)] =
      [{ timestamp := tsEncode 2024 1 1 10 0 0, level := ("INFO".toList),
         message := ("a\n hi".toList) }] ∧
     noEdgeSpaceB (" hi".toList) = false ∧
     noTrailSpaceB (" hi".toList) = true) := by
  refine ⟨?_, ?_, by decide, by decide, by decide⟩
  · intro now out f e he
    have he' : e ∈ parseLoop now f (splitNl out) none :=
      (sortFuel_perm _ _ rfl).mem_iff.mp he
    exact parseLoop_tail_lines now f (splitNl out) none
      (fun raw hr => mem_splitNl_no_nl out raw hr) (fun _ h => nomatch h) e he'
  · intro now chunks e he
    exact followRun_tail now _ none (fun _ h => nomatch h) e he

/-- Witness for C9: the query path at a header followed by a padded
continuation line, and the follow path at a continuation after a header. -/
theorem C9_witness :
    (("cont".toList) ≠ [] ∧ noEdgeSpaceB ("cont".toList) = true) ∧
    (("tail".toList) ≠ [] ∧ noTrailSpaceB ("tail".toList) = true) :=
  ⟨C9_message_lines.1 0
      ("2024/01/01 10:00:00 [x] [INFO] a\n   cont   ".toList) ⟨0, [], [], []⟩
      { timestamp := tsEncode 2024 1 1 10 0 0, level := ("INFO".toList),
        message := ("a\ncont".toList) } (by decide) ("cont".toList) (by decide),
   C9_message_lines.2.1 0
      [("2024/01/01 10:00:00 [x] [INFO] a\n   tail   ".toList)]
      { timestamp := tsEncode 2024 1 1 10 0 0, level := ("INFO".toList),
        message := ("a\ntail".toList) } (by decide) ("tail".toList) (by decide)⟩

/-! ### C10: level tokens are nonempty uppercase runs -/

theorem parseLoop_levels (now : Nat) (f : LogFilter) :
    ∀ (ls : List (List Char)) (cur : Option LogEntry),
      (∀ e0, cur = some e0 → LevelOk e0) →
      ∀ e ∈ parseLoop now f ls cur, LevelOk e := by
  intro ls
  induction ls with
  | nil =>
    intro cur hc e he
    cases cur with
    | none => cases he
    | some e0 =>
      simp only [parseLoop] at he
      split at he
      · rcases List.mem_singleton.mp he with rfl
        exact hc _ rfl
      · cases he
  | cons raw ls ih =>
    intro cur hc e he
    cases cur with
    | none =>
      simp only [parseLoop] at he
      by_cases hblank : (trimStr raw == []) = true
      · rw [if_pos hblank] at he
        exact ih none hc e he
      · rw [if_neg hblank] at he
        cases hm : matchHeader (trimStr raw) with
        | none =>
          rw [hm] at he
          exact ih none (fun _ h => nomatch h) e he
        | some p =>
          obtain ⟨ts, lvl, msg⟩ := p
          rw [hm] at he
          rcases List.mem_append.mp he with hfl | hrec
          · cases hfl
          · refine ih _ ?_ e hrec
            intro e1 h1
            injection h1 with h1'
            subst h1'
            obtain ⟨-, h1, h2⟩ := matchHeader_props (trimStr raw) ts lvl msg hm
            exact ⟨h1, h2⟩
    | some e0 =>
      simp only [parseLoop] at he
      by_cases hblank : (trimStr raw == []) = true
      · rw [if_pos hblank] at he
        exact ih _ hc e he
      · rw [if_neg hblank] at he
        cases hm : matchHeader (trimStr raw) with
        | none =>
          rw [hm] at he
          refine ih _ ?_ e he
          intro e1 h1
          injection h1 with h1'
          subst h1'
          exact hc e0 rfl
        | some p =>
          obtain ⟨ts, lvl, msg⟩ := p
          rw [hm] at he
          rcases List.mem_append.mp he with hfl | hrec
          · split at hfl
            · rcases List.mem_singleton.mp hfl with rfl
              exact hc _ rfl
            · cases hfl
          · refine ih _ ?_ e hrec
            intro e1 h1
            injection h1 with h1'
            subst h1'
            obtain ⟨-, h1, h2⟩ := matchHeader_props (trimStr raw) ts lvl msg hm
            exact ⟨h1, h2⟩

theorem followLineStep_levels (now : Nat) (st : Option LogEntry) (raw : List Char)
    (hst : ∀ e0, st = some e0 → LevelOk e0) :
    (∀ e0, (followLineStep now st raw).1 = some e0 → LevelOk e0) ∧
    (∀ e ∈ (followLineStep now st raw).2, LevelOk e) := by
  cases st with
  | none =>
    simp only [followLineStep]
    by_cases hblank : (trimStr raw == []) = true
    · rw [if_pos hblank]
      exact ⟨(fun _ h => nomatch h), (fun _ he => nomatch he)⟩
    · rw [if_neg hblank]
      cases hp : parseLogLine now (trimStr raw) with
      | none =>
        exact ⟨(fun _ h => nomatch h), (fun _ he => nomatch he)⟩
      | some entry =>
        have hlv : LevelOk entry := parseLogLine_level now (trimStr raw) entry hp
        refine ⟨?_, (fun _ he => nomatch he)⟩
        intro e1 h1
        injection h1 with h1'
        subst h1'
        exact hlv
  | some e0 =>
    simp only [followLineStep]
    by_cases hblank : (trimStr raw == []) = true
    · rw [if_pos hblank]
      exact ⟨(fun e1 h1 => hst e1 h1), (fun _ he => nomatch he)⟩
    · rw [if_neg hblank]
      cases hp : parseLogLine now (trimStr raw) with
      | none =>
        refine ⟨?_, (fun _ he => nomatch he)⟩
        intro e1 h1
        injection h1 with h1'
        subst h1'
        exact hst e0 rfl
      | some entry =>
        have hlv : LevelOk entry := parseLogLine_level now (trimStr raw) entry hp
        dsimp only
        split
        · refine ⟨?_, (fun _ he => nomatch he)⟩
          intro e1 h1
          injection h1 with h1'
          subst h1'
          exact hst e0 rfl
        · refine ⟨?_, ?_⟩
          · intro e1 h1
            injection h1 with h1'
            subst h1'
            exact hlv
          · intro e he
            rcases List.mem_singleton.mp he with rfl
            exact hst _ rfl

theorem followLines_levels (now : Nat) :
    ∀ (ls : List (List Char)) (st : Option LogEntry),
      (∀ e0, st = some e0 → LevelOk e0) →
      (∀ e0, (followLines now ls st).1 = some e0 → LevelOk e0) ∧
      (∀ e ∈ (followLines now ls st).2, LevelOk e) := by
  intro ls
  induction ls with
  | nil =>
    intro st hst
    exact ⟨hst, fun e he => nomatch he⟩
  | cons l ls ih =>
    intro st hst
    simp only [followLines]
    obtain ⟨h1, h2⟩ := followLineStep_levels now st l hst
    obtain ⟨h3, h4⟩ := ih _ h1
    refine ⟨h3, ?_⟩
    intro e he
    rcases List.mem_append.mp he with h | h
    · exact h2 e h
    · exact h4 e h

theorem followRun_levels (now : Nat) :
    ∀ (evs : List ReadEvent) (st : Option LogEntry),
      (∀ e0, st = some e0 → LevelOk e0) →
      ∀ e ∈ (followRun now evs st).1, LevelOk e := by
  intro evs
  induction evs with
  | nil => intro st hst e he; cases he
  | cons ev rest ih =>
    intro st hst e he
    cases ev with
    | cancel => cases he
    | readErr m =>
      simp only [followRun, flushPending] at he
      cases st with
      | none => cases he
      | some e0 =>
        rcases List.mem_singleton.mp he with rfl
        exact hst _ rfl
    | chunk s =>
      simp only [followRun, followChunk] at he
      obtain ⟨h1, h2⟩ := followLines_levels now (splitNl s) st hst
      rcases List.mem_append.mp he with h | h
      · exact h2 e h
      · exact ih _ h1 e h

/-- C10: a line is recognized as a header only when its bracketed level
token is a nonempty run of uppercase letters A-Z (the submatch the line
assembler extracts is such a run), and consequently every entry the
assembler emits - in the bounded fetch path and in the follow path alike -
has a level matching that pattern. -/
theorem C10_levels_uppercase :
    (∀ (l ts lvl msg : List Char), matchHeader l = some (ts, lvl, msg) →
      lvl ≠ [] ∧ lvl.all isUpperAZ = true) ∧
    (∀ (now : Nat) (l : List Char) (e : LogEntry),
      parseLogLine now l = some e → LevelOk e) ∧
    (∀ (now : Nat) (out : List Char) (f : LogFilter),
      ∀ e ∈ parseLogs now out f, LevelOk e) ∧
    (∀ (now : Nat) (chunks : List (List Char)),
      ∀ e ∈ followDelivered now chunks, LevelOk e) := by
  refine ⟨?_, ?_, ?_, ?_⟩
  · intro l ts lvl msg h
    exact (matchHeader_props l ts lvl msg h).2
  · intro now l e h
    exact parseLogLine_level now l e h
  · intro now out f e he
    have he' : e ∈ parseLoop now f (splitNl out) none :=
      (sortFuel_perm _ _ rfl).mem_iff.mp he
    exact parseLoop_levels now f (splitNl out) none (fun _ h => nomatch h) e he'
  · intro now chunks e he
    exact followRun_levels now _ none (fun _ h => nomatch h) e he

/-- Witness for C10: the level of a concretely parsed entry is a nonempty
uppercase run. -/
theorem C10_witness :
    LevelOk { timestamp := tsEncode 2024 1 1 10 0 0, level := ("INFO".toList),
              message := ("ok".toList) } :=
  C10_levels_uppercase.2.2.1 0 ("2024/01/01 10:00:00 [x] [INFO] ok".toList)
    ⟨0, [], [], []⟩
    { timestamp := tsEncode 2024 1 1 10 0 0, level := ("INFO".toList),
      message := ("ok".toList) } (by decide)

end Picoclaw
